import Mathlib

/-!
Verification of the SparseMatrix segment model
(`packages/runtime/sequence/src/sparsematrix.ts`).

The matrix is a chain of variable-length segments: `PaddingSegment`
(a run of empty cells, stored as a length only) and `RunSegment`
(a dense run of cell values with a parallel tag array).  The facade
translates `(row, col)` coordinates into positions of a single
row-major linear address space and edits the chain through the
range primitives of the external merge-tree engine.

Numbers are embedded as `Nat`.  The source's numbers are JavaScript
float64 values, whose arithmetic on non-negative integers is exact
only below `2^53`; every quantity the segment and facade claims touch
(lengths, positions, row/column indices of live matrices) stays far
below that bound, where the `Nat` embedding coincides with the
program.  The one computation that leaves the exact regime is the
address conversion at the top of the documented range, for which a
float64 rounding model (`flRound`, `rowColToPositionJS`) is embedded
alongside the exact functions.
-/

/-- Cell values (`UnboxedOper = undefined | boolean | number | string`).
`undefinedVal` is the absent value. -/
inductive UnboxedOper where
  | undefinedVal : UnboxedOper
  | boolVal : Bool → UnboxedOper
  | numVal : Int → UnboxedOper
  | strVal : String → UnboxedOper
deriving DecidableEq

/-- Per-cell tags are arbitrary session-local values defaulting to
`undefined`; `none` is the absent tag. -/
abbrev Tag := Option String

/-- Modelled from the spec: `PropertySet` of the external merge-tree
engine is an optional key-to-value metadata map; its internal merge
semantics are irrelevant to every claim. -/
abbrev PropertySet := List (String × String)

/-- Modelled from the spec: sequence-number constant of the external
merge-tree engine (its exact numeric value is immaterial here). -/
def UniversalSequenceNumber : Int := 0

/-- Modelled from the spec: client-id constant of the external
merge-tree engine (its exact numeric value is immaterial here). -/
def LocalClientId : Int := -1

/-- `PaddingSegment`: an empty segment occupying `cachedLength`
positions, with provenance and optional properties from the base
segment state. -/
structure PaddingSeg where
  cachedLength : Nat
  seq : Option Int
  clientId : Option Int
  properties : Option PropertySet
deriving DecidableEq

/-- `RunSegment`: a run of populated cells.  `items` are the values,
`tags` the parallel tag array (`cachedLength` of the base class is
`items.length` and is kept derived here). -/
structure RunSeg where
  items : List UnboxedOper
  tags : List Tag
  seq : Option Int
  clientId : Option Int
  properties : Option PropertySet
deriving DecidableEq

/-- `MatrixSegment = RunSegment | PaddingSegment`: the closed variant
set of the segment chain. -/
inductive MatrixSegment where
  | padding : PaddingSeg → MatrixSegment
  | run : RunSeg → MatrixSegment
deriving DecidableEq

/-- Length in positions of a segment (`cachedLength`). -/
def MatrixSegment.cachedLength : MatrixSegment → Nat
  | .padding p => p.cachedLength
  | .run r => r.items.length

def maxCol : Nat := 0x200000

def maxCols : Nat := maxCol + 1

def maxRow : Nat := 0xFFFFFFFF

def maxRows : Nat := maxRow + 1

def maxCellPosition : Nat := maxCol * maxRow

/-- Result record of `positionToRowCol`. -/
structure RowCol where
  row : Nat
  col : Nat
deriving DecidableEq

/-- `rowColToPosition(row, col) = row * maxCols + col`, in exact
integer arithmetic.  The source evaluates this with float64 numbers;
the two coincide whenever the product and sum stay below `2^53`,
which holds in every claim setting except the extreme of the
documented range (see `rowColToPositionJS`). -/
def rowColToPosition (row col : Nat) : Nat :=
  row * maxCols + col

/-- `positionToRowCol(position)`: `row = floor(position / maxCols)`,
`col = position - row * maxCols`, in exact integer arithmetic;
coincides with the source's float64 evaluation for positions whose
quotient and row-start product are exactly representable, in
particular everywhere below `2^53`. -/
def positionToRowCol (position : Nat) : RowCol :=
  let row := position / maxCols
  { row := row, col := position - row * maxCols }

/-- Unit in the last place of a non-negative integer stored as an
IEEE-754 binary64 value: integers below `2^53` sit in a regime where
consecutive integers are representable; from `2^(52+k)` up to
`2^(53+k)` only multiples of `2^k` are.  Written with a structural
fuel argument (the number itself, far more than the needed `log2 m`
halvings) so that it evaluates inside the kernel. -/
def ulp53Go : Nat → Nat → Nat
  | 0, _ => 1
  | fuel + 1, m => if m < 2 ^ 53 then 1 else 2 * ulp53Go fuel (m / 2)

def ulp53 (m : Nat) : Nat :=
  ulp53Go m m

/-- Round `m` to the nearest multiple of `u`, ties to the even
multiple — the IEEE-754 default rounding applied to an integer whose
ulp is `u`. -/
def roundNearestEven (m u : Nat) : Nat :=
  let q := m / u
  let r := m % u
  if 2 * r < u then q * u
  else if 2 * r > u then (q + 1) * u
  else (if q % 2 = 0 then q else q + 1) * u

/-- A non-negative integer as JavaScript stores it: the nearest
binary64 value (round-to-nearest, ties-to-even). -/
def flRound (m : Nat) : Nat :=
  roundNearestEven m (ulp53 m)

/-- `rowColToPosition(row, col)` as the source actually computes it:
`row * maxCols` rounded to the nearest double, then `+ col` rounded
again.  For exactly representable inputs (every `row ≤ maxRow`,
`col ≤ maxCol` is below `2^53`) this is the IEEE-754 evaluation of
the source expression. -/
def rowColToPositionJS (row col : Nat) : Nat :=
  flRound (flRound (row * maxCols) + col)

/-- Modelled from the spec: `BaseSegment.addProperties` of the external
engine merges a property set into the segment's optional set; claims
never inspect the merge result beyond pass-through, so it is kept as
concatenation onto the existing set. -/
def addProps (props : Option PropertySet) (newProps : PropertySet) : Option PropertySet :=
  some (props.getD [] ++ newProps)

/-- `PaddingSegment.canAppend`: the argument must itself be padding. -/
def PaddingSeg.canAppend (_p : PaddingSeg) (segment : MatrixSegment) : Bool :=
  match segment with
  | .padding _ => true
  | .run _ => false

/-- `PaddingSegment.append`: throws `"can only append padding segment"`
unless the argument is padding, else grows `cachedLength` by the
argument's length.  (Local references, rebased before the length
change, belong to the external engine and carry no claim content.)
The throw happens before any mutation, so in the error case the
receiver is unchanged. -/
def PaddingSeg.append (p : PaddingSeg) (segment : MatrixSegment) : Except String PaddingSeg :=
  match segment with
  | .padding q => .ok { p with cachedLength := p.cachedLength + q.cachedLength }
  | .run _ => .error "can only append padding segment"

/-- `PaddingSegment.removeRange(start, end)`: shrinks `cachedLength` by
`end - start`; the flag is true iff the whole segment was consumed. -/
def PaddingSeg.removeRange (p : PaddingSeg) (start e : Nat) : PaddingSeg × Bool :=
  let p2 : PaddingSeg := { p with cachedLength := p.cachedLength - (e - start) }
  (p2, p2.cachedLength == 0)

/-- `PaddingSegment.createSplitSegmentAt(pos)`: the original keeps
length `pos`; the returned sibling gets the remaining length and
inherits `seq`/`clientId` (a freshly constructed segment, so without
the original's properties). -/
def PaddingSeg.createSplitSegmentAt (p : PaddingSeg) (pos : Nat) : PaddingSeg × PaddingSeg :=
  ({ p with cachedLength := pos },
   { cachedLength := p.cachedLength - pos, seq := p.seq, clientId := p.clientId,
     properties := none })

/-- `PaddingSegment.clone(start = 0, end?)`: builds a new segment from
the full `cachedLength` and the provenance, then `cloneInto` (base
class, modelled from the spec) copies the properties.  `start` and
`end` are accepted but never read. -/
def PaddingSeg.clone (p : PaddingSeg) (_start : Nat) (_e : Option Nat) : PaddingSeg :=
  { cachedLength := p.cachedLength, seq := p.seq, clientId := p.clientId,
    properties := p.properties }

/-- Serialized shapes of the wire/snapshot format: `{pad: n, props?}`
for padding and `{items: [...], props?}` for runs. -/
inductive IJSONSegment where
  | padSpec : Nat → Option PropertySet → IJSONSegment
  | itemsSpec : List UnboxedOper → Option PropertySet → IJSONSegment
deriving DecidableEq

/-- `PaddingSegment.toJSONObject() = { pad: cachedLength, props: properties }`. -/
def PaddingSeg.toJSONObject (p : PaddingSeg) : IJSONSegment :=
  .padSpec p.cachedLength p.properties

/-- `PaddingSegment.fromJSONObject(spec)`: recognizes the `pad` shape,
builds a padding segment with the universal provenance constants and
adds the properties if present; yields nothing for other shapes. -/
def PaddingSeg.fromJSONObject (spec : IJSONSegment) : Option PaddingSeg :=
  match spec with
  | .padSpec pad props =>
      let segment : PaddingSeg :=
        { cachedLength := pad, seq := some UniversalSequenceNumber,
          clientId := some LocalClientId, properties := none }
      some (match props with
            | some pr => { segment with properties := addProps segment.properties pr }
            | none => segment)
  | .itemsSpec _ _ => none

/-- `RunSegment` constructor: `tags` starts as an all-`undefined`
array of the items' length. -/
def RunSeg.mk' (items : List UnboxedOper) (seq clientId : Option Int) : RunSeg :=
  { items := items, tags := List.replicate items.length none,
    seq := seq, clientId := clientId, properties := none }

/-- `RunSegment.fromJSONObject(spec)`: recognizes the `items` shape,
builds a run segment with the universal provenance constants (the tag
array is freshly all-absent, from the constructor) and adds the
properties if present; yields nothing for other shapes. -/
def RunSeg.fromJSONObject (spec : IJSONSegment) : Option RunSeg :=
  match spec with
  | .itemsSpec items props =>
      let segment : RunSeg := RunSeg.mk' items (some UniversalSequenceNumber) (some LocalClientId)
      some (match props with
            | some pr => { segment with properties := addProps segment.properties pr }
            | none => segment)
  | .padSpec _ _ => none

/-- Modelled from the spec: `SubSequence.toJSONObject` (base class not
in the sources) serializes `{ items, props }`; tags are never written. -/
def RunSeg.toJSONObject (r : RunSeg) : IJSONSegment :=
  .itemsSpec r.items r.properties

/-- `RunSegment.clone(start = 0, end?)`: slices `items` and `tags` to
`[start, end)` and copies provenance and (via `cloneInto`) properties. -/
def RunSeg.clone (r : RunSeg) (start : Nat) (e : Option Nat) : RunSeg :=
  let stop := e.getD r.items.length
  { items := (r.items.take stop).drop start, tags := (r.tags.take stop).drop start,
    seq := r.seq, clientId := r.clientId, properties := r.properties }

/-- Modelled from the spec: the base capability's `canAppend` for a run
segment requires the argument to be a run segment. -/
def RunSeg.canAppend (_r : RunSeg) (segment : MatrixSegment) : Bool :=
  match segment with
  | .run _ => true
  | .padding _ => false

/-- `RunSegment.append`: `super.append` (modelled from the spec:
concatenates the value arrays; enforces that the argument is a run)
followed by splicing the argument's tags in at `this.items.length`
(which, the items being already concatenated, is at or beyond the end
of the receiver's tag array, so the splice appends them). -/
def RunSeg.append (r : RunSeg) (segment : MatrixSegment) : Except String RunSeg :=
  match segment with
  | .run b =>
      let r1 : RunSeg := { r with items := r.items ++ b.items }
      .ok { r1 with
            tags := r1.tags.take r1.items.length ++ b.tags ++ r1.tags.drop r1.items.length }
  | .padding _ => .error "can only append run segment"

/-- `RunSegment.removeRange(start, end)`: splices `[start, end)` out of
`tags`, then (base contract, modelled from the spec) out of `items`;
the flag is true iff the whole run was consumed. -/
def RunSeg.removeRange (r : RunSeg) (start e : Nat) : RunSeg × Bool :=
  let r2 : RunSeg := { r with items := r.items.take start ++ r.items.drop e,
                              tags := r.tags.take start ++ r.tags.drop e }
  (r2, r2.items.length == 0)

/-- `RunSegment.getTag(pos) = tags[pos]`. -/
def RunSeg.getTagAt (r : RunSeg) (pos : Nat) : Tag :=
  r.tags.getD pos none

/-- `RunSegment.setTag(pos, tag)`: `tags[pos] = tag`. -/
def RunSeg.setTagAt (r : RunSeg) (pos : Nat) (tag : Tag) : RunSeg :=
  { r with tags := r.tags.set pos tag }

/-- `RunSegment.createSplitSegmentAt(pos)` for `0 < pos`: the original
keeps `items[0:pos]`/`tags[0:pos]`; the returned sibling holds
`items[pos:]`/`tags[pos:]` and inherits `seq`/`clientId`. -/
def RunSeg.createSplitSegmentAt (r : RunSeg) (pos : Nat) : RunSeg × RunSeg :=
  ({ r with items := r.items.take pos, tags := r.tags.take pos },
   { items := r.items.drop pos, tags := r.tags.drop pos,
     seq := r.seq, clientId := r.clientId, properties := none })

/-- Split dispatch over the closed variant set. -/
def MatrixSegment.createSplitSegmentAt :
    MatrixSegment → Nat → MatrixSegment × MatrixSegment
  | .padding p, pos =>
      let s := p.createSplitSegmentAt pos
      (.padding s.1, .padding s.2)
  | .run r, pos =>
      let s := r.createSplitSegmentAt pos
      (.run s.1, .run s.2)

/-- Per-segment removal dispatch; `none` when the segment was fully
consumed and is detached from the chain. -/
def segRemoveRange (s : MatrixSegment) (start e : Nat) : Option MatrixSegment :=
  match s with
  | .padding p =>
      let res := p.removeRange start e
      if res.2 then none else some (.padding res.1)
  | .run r =>
      let res := r.removeRange start e
      if res.2 then none else some (.run res.1)

/-- Modelled from the spec: the engine's `locate(position)` primitive
(`getContainingSegment`) walks the ordered chain and yields the
segment covering the position together with the intra-segment offset. -/
def getContainingSegment :
    List MatrixSegment → Nat → Option (MatrixSegment × Nat)
  | [], _ => none
  | s :: rest, pos =>
      if pos < s.cachedLength then some (s, pos)
      else getContainingSegment rest (pos - s.cachedLength)

/-- Modelled from the spec: the engine's `getLength()` is the sum of
the live segments' lengths (the total-linear-extent invariant). -/
def chainLength (chain : List MatrixSegment) : Nat :=
  chain.foldr (fun s acc => s.cachedLength + acc) 0

/-- Modelled from the spec: the engine's `removeRange(start, end)`
removes the linear slice `[start, end)` from the chain, removing the
overlap from each covered segment through the segment's own
`removeRange` and detaching segments that report full consumption. -/
def chainRemoveRange :
    List MatrixSegment → Nat → Nat → List MatrixSegment
  | [], _, _ => []
  | s :: rest, start, e =>
      if e ≤ start then s :: rest
      else if s.cachedLength ≤ start then
        s :: chainRemoveRange rest (start - s.cachedLength) (e - s.cachedLength)
      else
        let tail := chainRemoveRange rest 0 (e - s.cachedLength)
        match segRemoveRange s start (min e s.cachedLength) with
        | none => tail
        | some s2 => s2 :: tail

/-- Modelled from the spec: the engine's `insertAt(position, segment)`
splits the covering segment (through its `createSplitSegmentAt`) when
the position falls strictly inside it and links the new segment into
the chain; a position at or beyond the end appends. -/
def chainInsert :
    List MatrixSegment → Nat → MatrixSegment → List MatrixSegment
  | [], _, seg => [seg]
  | s :: rest, pos, seg =>
      if pos = 0 then seg :: s :: rest
      else if pos < s.cachedLength then
        let halves := s.createSplitSegmentAt pos
        halves.1 :: seg :: halves.2 :: rest
      else s :: chainInsert rest (pos - s.cachedLength) seg

/-- Modelled from the spec: the engine's `replaceRange(start, end, seg)`
atomically replaces the slice `[start, end)` with the new segment. -/
def replaceRange (chain : List MatrixSegment) (start e : Nat)
    (segment : MatrixSegment) : List MatrixSegment :=
  chainInsert (chainRemoveRange chain start e) start segment

/-- `SparseMatrix.numRows`: the row of the total length, i.e. the
derived row count `floor(totalLength / maxCols)`. -/
def numRows (chain : List MatrixSegment) : Nat :=
  (positionToRowCol (chainLength chain)).row

/-- `SparseMatrix.setItems(row, col, values, props?)`: builds a fresh
run segment from `values` (tagged with `props` when given) and
replaces the range `[start, start + values.length)` with it. -/
def setItems (chain : List MatrixSegment) (row col : Nat)
    (values : List UnboxedOper) (props : Option PropertySet) : List MatrixSegment :=
  let start := rowColToPosition row col
  let e := start + values.length
  let segment : RunSeg := RunSeg.mk' values none none
  let segment : RunSeg :=
    match props with
    | some pr => { segment with properties := addProps segment.properties pr }
    | none => segment
  replaceRange chain start e (.run segment)

/-- `SparseMatrix.getItem` resolved at a linear position: the covering
run segment's item at the offset, or absent over padding.  (Accessing
a position beyond the extent faults in the source; here it reads as
absent, and every theorem that touches this case restricts itself to
the extent.) -/
def getItemAtPos (chain : List MatrixSegment) (pos : Nat) : UnboxedOper :=
  match getContainingSegment chain pos with
  | some (.run r, offset) => r.items.getD offset .undefinedVal
  | some (.padding _, _) => .undefinedVal
  | none => .undefinedVal

/-- `SparseMatrix.getItem(row, col)`. -/
def getItem (chain : List MatrixSegment) (row col : Nat) : UnboxedOper :=
  getItemAtPos chain (rowColToPosition row col)

/-- `SparseMatrix.getTag` resolved at a linear position. -/
def getTagAtPos (chain : List MatrixSegment) (pos : Nat) : Tag :=
  match getContainingSegment chain pos with
  | some (.run r, offset) => r.getTagAt offset
  | _ => none

/-- `SparseMatrix.getTag(row, col)`. -/
def getTag (chain : List MatrixSegment) (row col : Nat) : Tag :=
  getTagAtPos chain (rowColToPosition row col)

/-- `SparseMatrix.setTag` resolved at a linear position, with the
source's in-place mutation rendered as rebuilding the chain: over a
run segment the tag at the offset is set; over padding a non-absent
tag throws (`InvalidTagTarget`, source message "Must not attempt to
set tags on ...") and an absent tag is a no-op; a position beyond the
extent faults (the source dereferences an undefined segment). -/
def setTagAtPos :
    List MatrixSegment → Nat → Tag → Except String (List MatrixSegment)
  | [], _, _ => .error "TypeError: segment is undefined"
  | s :: rest, pos, tag =>
      if pos < s.cachedLength then
        match s with
        | .run r => .ok (.run (r.setTagAt pos tag) :: rest)
        | .padding p =>
            if tag = none then .ok (.padding p :: rest)
            else .error "Must not attempt to set tags on PaddingSegment"
      else
        match setTagAtPos rest (pos - s.cachedLength) tag with
        | .ok rest2 => .ok (s :: rest2)
        | .error msg => .error msg

/-- `SparseMatrix.setTag(row, col, tag)`. -/
def setTag (chain : List MatrixSegment) (row col : Nat) (tag : Tag) :
    Except String (List MatrixSegment) :=
  setTagAtPos chain (rowColToPosition row col) tag

/-- `SparseMatrix.insertRows(row, numRows)`: inserts one padding
segment of length `maxCols * numRows` at the start of row `row`. -/
def insertRows (chain : List MatrixSegment) (row nRows : Nat) : List MatrixSegment :=
  let pos := rowColToPosition row 0
  let size := maxCols * nRows
  chainInsert chain pos
    (.padding { cachedLength := size, seq := none, clientId := none, properties := none })

/-- `SparseMatrix.removeRows(row, numRows)`: removes the linear extent
of the rows. -/
def removeRows (chain : List MatrixSegment) (row nRows : Nat) : List MatrixSegment :=
  let pos := rowColToPosition row 0
  let size := maxCols * nRows
  chainRemoveRange chain pos (pos + size)

/-- One iteration step chain of `SparseMatrix.moveAsPadding`: for each
row `r` below the (re-evaluated) row count, remove the linear slice
`[rowStart + srcCol, rowStart + srcCol + numCols)` and insert a fresh
padding segment of length `numCols` at `rowStart + destCol`.  The
loop is rendered with a fuel argument; the caller passes one more
than the row count, which covers every run in which the total length
is preserved (as it is whenever the removed slice lies inside the
extent), exactly the situations the claims quantify over. -/
def moveAsPaddingGo (srcCol destCol numCols : Nat) :
    Nat → Nat → Nat → List MatrixSegment → List MatrixSegment
  | 0, _, _, chain => chain
  | fuel + 1, r, rowStart, chain =>
      if r < numRows chain then
        let chain1 := chainRemoveRange chain (rowStart + srcCol) (rowStart + srcCol + numCols)
        let segment : PaddingSeg :=
          { cachedLength := numCols, seq := some UniversalSequenceNumber,
            clientId := some LocalClientId, properties := none }
        let chain2 := chainInsert chain1 (rowStart + destCol) (.padding segment)
        moveAsPaddingGo srcCol destCol numCols fuel (r + 1) (rowStart + maxCols) chain2
      else chain

/-- `SparseMatrix.moveAsPadding(srcCol, destCol, numCols)`. -/
def moveAsPadding (chain : List MatrixSegment) (srcCol destCol numCols : Nat) :
    List MatrixSegment :=
  moveAsPaddingGo srcCol destCol numCols (numRows chain + 1) 0 0 chain

/-- `SparseMatrix.insertCols(col, numCols)`: moves the padding reserved
at the tail of the row address space to `col`. -/
def insertCols (chain : List MatrixSegment) (col numCols : Nat) : List MatrixSegment :=
  moveAsPadding chain (maxCol - numCols) col numCols

/-- `SparseMatrix.removeCols(col, numCols)`: moves the removed columns'
replacement padding to the tail of the row address space. -/
def removeCols (chain : List MatrixSegment) (col numCols : Nat) : List MatrixSegment :=
  moveAsPadding chain col (maxCol - numCols) numCols

/-- `SparseMatrix.segmentFromSpec(spec)`: deserialization dispatch,
trying the padding shape then the run shape. -/
def segmentFromSpec (spec : IJSONSegment) : Except String MatrixSegment :=
  match PaddingSeg.fromJSONObject spec with
  | some p => .ok (.padding p)
  | none =>
      match RunSeg.fromJSONObject spec with
      | some r => .ok (.run r)
      | none => .error "Unrecognized IJSONObject"

/-- Well-formedness of a chain: each run segment keeps the class
invariant `tags.length = items.length` established by the constructor
and preserved by every mutation. -/
def chainWF : List MatrixSegment → Bool
  | [] => true
  | .run r :: rest => (r.tags.length == r.items.length) && chainWF rest
  | .padding _ :: rest => chainWF rest

/-! ### List helper lemmas -/

theorem getD_append_lt {α : Type} (l1 l2 : List α) (n : Nat) (d : α)
    (h : n < l1.length) : (l1 ++ l2).getD n d = l1.getD n d := by
  induction l1 generalizing n with
  | nil => simp at h
  | cons a t ih =>
      cases n with
      | zero => rfl
      | succ m =>
          simp only [List.length_cons] at h
          simpa [List.getD] using ih m (by omega)

theorem getD_append_ge {α : Type} (l1 l2 : List α) (n : Nat) (d : α)
    (h : l1.length ≤ n) : (l1 ++ l2).getD n d = l2.getD (n - l1.length) d := by
  induction l1 generalizing n with
  | nil => simp
  | cons a t ih =>
      cases n with
      | zero => simp at h
      | succ m =>
          simp only [List.length_cons] at h ⊢
          simpa [List.getD, Nat.succ_sub_succ] using ih m (by omega)

theorem getD_take_of_lt {α : Type} (l : List α) (m n : Nat) (d : α)
    (h : n < m) : (l.take m).getD n d = l.getD n d := by
  induction l generalizing m n with
  | nil => simp
  | cons a t ih =>
      cases m with
      | zero => omega
      | succ m2 =>
          cases n with
          | zero => rfl
          | succ n2 => simpa [List.getD] using ih m2 n2 (by omega)

theorem getD_drop {α : Type} (l : List α) (m n : Nat) (d : α) :
    (l.drop m).getD n d = l.getD (m + n) d := by
  induction l generalizing m with
  | nil => simp
  | cons a t ih =>
      cases m with
      | zero => simp
      | succ m2 => simp [List.getD, Nat.succ_add, ih m2]

theorem getD_replicate {α : Type} (k n : Nat) (d : α) :
    (List.replicate k d).getD n d = d := by
  induction k generalizing n with
  | zero => simp
  | succ k2 ih =>
      cases n with
      | zero => rfl
      | succ n2 => simp [List.replicate, List.getD, ih n2]

theorem getD_set_self {α : Type} (l : List α) (n : Nat) (v d : α)
    (h : n < l.length) : (l.set n v).getD n d = v := by
  induction l generalizing n with
  | nil => simp at h
  | cons a t ih =>
      cases n with
      | zero => rfl
      | succ m =>
          simp only [List.length_cons] at h
          simpa [List.set, List.getD] using ih m (by omega)

theorem take_append_add {α : Type} (A X : List α) (s : Nat) :
    (A ++ X).take (A.length + s) = A ++ X.take s := by
  induction A with
  | nil => simp
  | cons a t ih => simp [Nat.succ_add, ih]

theorem drop_append_add {α : Type} (A X : List α) (s : Nat) :
    (A ++ X).drop (A.length + s) = X.drop s := by
  induction A with
  | nil => simp
  | cons a t ih => simp [Nat.succ_add, ih]

theorem take_append_le {α : Type} (A X : List α) (s : Nat)
    (h : s ≤ A.length) : (A ++ X).take s = A.take s := by
  induction A generalizing s with
  | nil =>
      simp only [List.length_nil, Nat.le_zero] at h
      simp [h]
  | cons a t ih =>
      cases s with
      | zero => simp
      | succ m =>
          simp only [List.length_cons] at h
          simp [List.take, ih m (by omega)]

theorem drop_append_le {α : Type} (A X : List α) (s : Nat)
    (h : s ≤ A.length) : (A ++ X).drop s = A.drop s ++ X := by
  induction A generalizing s with
  | nil =>
      simp only [List.length_nil, Nat.le_zero] at h
      simp [h]
  | cons a t ih =>
      cases s with
      | zero => simp
      | succ m =>
          simp only [List.length_cons] at h
          simp [List.drop, ih m (by omega)]

/-! ### Flattening a chain into its list of cells -/

/-- The cells a segment contributes to the linear address space:
absent cells for padding, the items for a run. -/
def segCells : MatrixSegment → List UnboxedOper
  | .padding p => List.replicate p.cachedLength .undefinedVal
  | .run r => r.items

/-- All cells of a chain, in linear order. -/
def flatten (chain : List MatrixSegment) : List UnboxedOper :=
  chain.foldr (fun s acc => segCells s ++ acc) []

theorem segCells_length (s : MatrixSegment) :
    (segCells s).length = s.cachedLength := by
  cases s <;> simp [segCells, MatrixSegment.cachedLength]

theorem flatten_cons (s : MatrixSegment) (rest : List MatrixSegment) :
    flatten (s :: rest) = segCells s ++ flatten rest := rfl

theorem flatten_length (chain : List MatrixSegment) :
    (flatten chain).length = chainLength chain := by
  induction chain with
  | nil => rfl
  | cons s rest ih =>
      simp only [flatten_cons, List.length_append, segCells_length, ih]
      rfl

/-- Reading a cell of the chain is reading the flattened cell list. -/
theorem getItemAtPos_eq_flatten (chain : List MatrixSegment) (pos : Nat) :
    getItemAtPos chain pos = (flatten chain).getD pos .undefinedVal := by
  induction chain generalizing pos with
  | nil => rfl
  | cons s rest ih =>
      rw [flatten_cons]
      by_cases h : pos < s.cachedLength
      · rw [getD_append_lt _ _ _ _ (by rw [segCells_length]; exact h)]
        cases s with
        | run r =>
            simp [getItemAtPos, getContainingSegment, h, segCells]
        | padding p =>
            simp [getItemAtPos, getContainingSegment, h, segCells, getD_replicate]
      · rw [getD_append_ge _ _ _ _ (by rw [segCells_length]; omega),
            segCells_length]
        have : getItemAtPos (s :: rest) pos = getItemAtPos rest (pos - s.cachedLength) := by
          simp [getItemAtPos, getContainingSegment, h]
        rw [this, ih]

/-- The cells of a segment after an in-segment removal are the cells
outside the removed window (empty when the segment detaches). -/
theorem segRemoveRange_cells (s : MatrixSegment) (a e : Nat)
    (hae : a ≤ e) (he : e ≤ s.cachedLength) :
    (match segRemoveRange s a e with
     | none => ([] : List UnboxedOper)
     | some s2 => segCells s2)
      = (segCells s).take a ++ (segCells s).drop e := by
  cases s with
  | run r =>
      simp only [MatrixSegment.cachedLength] at he
      simp only [segRemoveRange, RunSeg.removeRange, segCells]
      by_cases hz : (r.items.take a ++ r.items.drop e).length == 0
      · rw [if_pos hz]
        have hlen : (r.items.take a ++ r.items.drop e).length = 0 := by
          simpa using hz
        exact (List.eq_nil_of_length_eq_zero hlen).symm
      · rw [if_neg hz]
  | padding p =>
      simp only [MatrixSegment.cachedLength] at he
      simp only [segRemoveRange, PaddingSeg.removeRange, segCells]
      rw [List.take_replicate, List.drop_replicate, ← List.replicate_add]
      by_cases hz : p.cachedLength - (e - a) == 0
      · rw [if_pos hz]
        have h0 : p.cachedLength - (e - a) = 0 := by simpa using hz
        have : min a p.cachedLength + (p.cachedLength - e) = 0 := by omega
        rw [this]
        rfl
      · rw [if_neg hz]
        have : min a p.cachedLength + (p.cachedLength - e) = p.cachedLength - (e - a) := by
          omega
        rw [this]

/-- Flattening a chain headed by an optionally detached segment. -/
theorem flatten_match_cons (o : Option MatrixSegment) (t : List MatrixSegment) :
    flatten (match o with | none => t | some s2 => s2 :: t)
      = (match o with
         | none => ([] : List UnboxedOper)
         | some s2 => segCells s2) ++ flatten t := by
  cases o with
  | none => simp
  | some s2 => rw [flatten_cons]

/-- Removing a linear range from the chain removes it from the
flattened cell list. -/
theorem flatten_chainRemoveRange (chain : List MatrixSegment) :
    ∀ a b : Nat, a ≤ b →
      flatten (chainRemoveRange chain a b)
        = (flatten chain).take a ++ (flatten chain).drop b := by
  induction chain with
  | nil => intro a b _; simp [chainRemoveRange, flatten]
  | cons s rest ih =>
      intro a b hab
      by_cases h1 : b ≤ a
      · have hba : a = b := Nat.le_antisymm hab h1
        simp only [chainRemoveRange, if_pos h1]
        rw [hba, List.take_append_drop]
      · by_cases h2 : s.cachedLength ≤ a
        · simp only [chainRemoveRange, if_neg h1, if_pos h2]
          have hta : (flatten (s :: rest)).take a
              = segCells s ++ (flatten rest).take (a - s.cachedLength) := by
            rw [flatten_cons]
            have h3 : a = (segCells s).length + (a - s.cachedLength) := by
              rw [segCells_length]; omega
            calc (segCells s ++ flatten rest).take a
                = (segCells s ++ flatten rest).take
                    ((segCells s).length + (a - s.cachedLength)) := by rw [← h3]
              _ = segCells s ++ (flatten rest).take (a - s.cachedLength) :=
                  take_append_add _ _ _
          have htb : (flatten (s :: rest)).drop b
              = (flatten rest).drop (b - s.cachedLength) := by
            rw [flatten_cons]
            have h3 : b = (segCells s).length + (b - s.cachedLength) := by
              rw [segCells_length]; omega
            calc (segCells s ++ flatten rest).drop b
                = (segCells s ++ flatten rest).drop
                    ((segCells s).length + (b - s.cachedLength)) := by rw [← h3]
              _ = (flatten rest).drop (b - s.cachedLength) := drop_append_add _ _ _
          rw [hta, htb, flatten_cons, ih _ _ (by omega), List.append_assoc]
        · simp only [chainRemoveRange, if_neg h1, if_neg h2]
          have hale : a < s.cachedLength := by omega
          have hcells := segRemoveRange_cells s a (min b s.cachedLength)
            (by omega) (Nat.min_le_right _ _)
          have htail : flatten (chainRemoveRange rest 0 (b - s.cachedLength))
              = (flatten rest).drop (b - s.cachedLength) := by
            rw [ih 0 (b - s.cachedLength) (by omega)]
            simp
          have hta : (flatten (s :: rest)).take a = (segCells s).take a := by
            rw [flatten_cons]
            exact take_append_le _ _ _ (by rw [segCells_length]; omega)
          rw [flatten_match_cons, hcells, htail, hta]
          by_cases h4 : b ≤ s.cachedLength
          · have hmin : min b s.cachedLength = b := by omega
            have htb : (flatten (s :: rest)).drop b
                = (segCells s).drop b ++ flatten rest := by
              rw [flatten_cons]
              exact drop_append_le _ _ _ (by rw [segCells_length]; omega)
            have hb0 : b - s.cachedLength = 0 := by omega
            rw [hmin, hb0, List.drop_zero, htb]
            simp [List.append_assoc]
          · have hmin : min b s.cachedLength = s.cachedLength := by omega
            have htb : (flatten (s :: rest)).drop b
                = (flatten rest).drop (b - s.cachedLength) := by
              rw [flatten_cons]
              have h3 : b = (segCells s).length + (b - s.cachedLength) := by
                rw [segCells_length]; omega
              calc (segCells s ++ flatten rest).drop b
                  = (segCells s ++ flatten rest).drop
                      ((segCells s).length + (b - s.cachedLength)) := by rw [← h3]
                _ = (flatten rest).drop (b - s.cachedLength) := drop_append_add _ _ _
            have hdropL : (segCells s).drop s.cachedLength = [] := by
              rw [← segCells_length s]
              exact List.drop_length _
            rw [hmin, hdropL, htb]
            simp [List.append_assoc]

/-- The halves of a split carry the prefix and suffix of the
segment's cells. -/
theorem segSplit_cells (s : MatrixSegment) (pos : Nat)
    (h : pos ≤ s.cachedLength) :
    segCells (s.createSplitSegmentAt pos).1 = (segCells s).take pos
    ∧ segCells (s.createSplitSegmentAt pos).2 = (segCells s).drop pos := by
  cases s with
  | run r =>
      simp [MatrixSegment.createSplitSegmentAt, RunSeg.createSplitSegmentAt, segCells]
  | padding p =>
      simp only [MatrixSegment.cachedLength] at h
      constructor
      · simp only [MatrixSegment.createSplitSegmentAt, PaddingSeg.createSplitSegmentAt,
          segCells, List.take_replicate]
        rw [Nat.min_eq_left h]
      · simp [MatrixSegment.createSplitSegmentAt, PaddingSeg.createSplitSegmentAt,
          segCells, List.drop_replicate]

/-- Inserting a segment at a linear position splices its cells into
the flattened cell list at that position. -/
theorem flatten_chainInsert (chain : List MatrixSegment) :
    ∀ (pos : Nat) (seg : MatrixSegment),
      flatten (chainInsert chain pos seg)
        = (flatten chain).take pos ++ segCells seg ++ (flatten chain).drop pos := by
  induction chain with
  | nil => intro pos seg; simp [chainInsert, flatten]
  | cons s rest ih =>
      intro pos seg
      by_cases h0 : pos = 0
      · subst h0
        simp [chainInsert, flatten_cons]
      · by_cases h1 : pos < s.cachedLength
        · simp only [chainInsert, if_neg h0, if_pos h1]
          obtain ⟨hl, hr⟩ := segSplit_cells s pos (by omega)
          rw [flatten_cons, flatten_cons, flatten_cons, hl, hr, flatten_cons]
          have hta : (segCells s ++ flatten rest).take pos = (segCells s).take pos :=
            take_append_le _ _ _ (by rw [segCells_length]; omega)
          have htb : (segCells s ++ flatten rest).drop pos
              = (segCells s).drop pos ++ flatten rest :=
            drop_append_le _ _ _ (by rw [segCells_length]; omega)
          rw [hta, htb]
          simp [List.append_assoc]
        · simp only [chainInsert, if_neg h0, if_neg h1]
          rw [flatten_cons, flatten_cons, ih (pos - s.cachedLength) seg]
          have h3 : pos = (segCells s).length + (pos - s.cachedLength) := by
            rw [segCells_length]; omega
          have hta : (segCells s ++ flatten rest).take pos
              = segCells s ++ (flatten rest).take (pos - s.cachedLength) := by
            calc (segCells s ++ flatten rest).take pos
                = (segCells s ++ flatten rest).take
                    ((segCells s).length + (pos - s.cachedLength)) := by rw [← h3]
              _ = segCells s ++ (flatten rest).take (pos - s.cachedLength) :=
                  take_append_add _ _ _
          have htb : (segCells s ++ flatten rest).drop pos
              = (flatten rest).drop (pos - s.cachedLength) := by
            calc (segCells s ++ flatten rest).drop pos
                = (segCells s ++ flatten rest).drop
                    ((segCells s).length + (pos - s.cachedLength)) := by rw [← h3]
              _ = (flatten rest).drop (pos - s.cachedLength) := drop_append_add _ _ _
          rw [hta, htb]
          simp [List.append_assoc]

theorem take_length_le_eq {α : Type} (l : List α) (n : Nat)
    (h : l.length ≤ n) : l.take n = l := by
  induction l generalizing n with
  | nil => simp
  | cons a t ih =>
      cases n with
      | zero => simp at h
      | succ m =>
          simp only [List.length_cons] at h
          simp [List.take, ih m (by omega)]

theorem drop_length_le_eq {α : Type} (l : List α) (n : Nat)
    (h : l.length ≤ n) : l.drop n = [] := by
  induction l generalizing n with
  | nil => simp
  | cons a t ih =>
      cases n with
      | zero => simp at h
      | succ m =>
          simp only [List.length_cons] at h
          simp [List.drop, ih m (by omega)]

/-! ### Claim theorems: segment-level laws -/

set_option maxRecDepth 100000 in
/-- Claim C2, failing input: evaluated with the source's float64
arithmetic, `rowColToPosition(maxRow, maxCol)` does not produce the
exact position.  The true product `maxRow * maxCols = 2^53 + 2^32 -
2^21 - 1` lies above `2^53` and is odd, hence is not representable
and rounds (ties-to-even) up by one; adding `maxCol` lands exactly on
`(maxRow + 1) * maxCols`, the row-start of row `maxRow + 1`.  On that
position the source's `positionToRowCol` is float-exact — the
quotient `maxRow + 1 = 2^32` and the row-start product `2^53 + 2^32`
are representable doubles, so its float64 evaluation coincides with
the exact `positionToRowCol` used here — and returns
`(maxRow + 1, 0)`, not the `(maxRow, maxCol)` the claim requires. -/
theorem C2_position_bijection_failing_input :
    rowColToPositionJS maxRow maxCol = rowColToPosition (maxRow + 1) 0
    ∧ positionToRowCol (rowColToPositionJS maxRow maxCol)
        = { row := maxRow + 1, col := 0 }
    ∧ ¬ (positionToRowCol (rowColToPositionJS maxRow maxCol)
          = { row := maxRow, col := maxCol }) := by
  decide

/-- Claim C3: splitting a run segment at any interior point `k`
partitions both the values and the tags (`left ++ right = original`),
and the returned sibling inherits the original's `seq`/`clientId`
provenance. -/
theorem C3_run_split_law (r : RunSeg) (k : Nat)
    (h0 : 0 < k) (hk : k < r.items.length) :
    (r.createSplitSegmentAt k).1.items ++ (r.createSplitSegmentAt k).2.items = r.items
    ∧ (r.createSplitSegmentAt k).1.tags ++ (r.createSplitSegmentAt k).2.tags = r.tags
    ∧ (r.createSplitSegmentAt k).2.seq = r.seq
    ∧ (r.createSplitSegmentAt k).2.clientId = r.clientId := by
  refine ⟨?_, ?_, rfl, rfl⟩ <;>
    simp [RunSeg.createSplitSegmentAt, List.take_append_drop]

/-- Sample run segment used to instantiate witnesses. -/
def sampleRun : RunSeg :=
  { items := [.strVal "a", .strVal "b"], tags := [some "t", none],
    seq := some 3, clientId := some 4, properties := none }

theorem C3_run_split_law_witness :
    0 < 1 ∧ 1 < sampleRun.items.length
    ∧ ((sampleRun.createSplitSegmentAt 1).1.items
          ++ (sampleRun.createSplitSegmentAt 1).2.items = sampleRun.items
       ∧ (sampleRun.createSplitSegmentAt 1).1.tags
          ++ (sampleRun.createSplitSegmentAt 1).2.tags = sampleRun.tags
       ∧ (sampleRun.createSplitSegmentAt 1).2.seq = sampleRun.seq
       ∧ (sampleRun.createSplitSegmentAt 1).2.clientId = sampleRun.clientId) :=
  ⟨by decide, by decide, C3_run_split_law sampleRun 1 (by decide) (by decide)⟩

/-- Claim C4: for run segments `A`, `B` with `A.canAppend(B)`,
`A.append(B)` concatenates the values and the tags; and appending the
two halves of a split reconstitutes the original segment exactly
(append is the inverse of split).  The `tags.length = items.length`
hypotheses are the run-segment class invariant. -/
theorem C4_run_append_law :
    (∀ (a : RunSeg) (s : MatrixSegment), RunSeg.canAppend a s = true →
      a.tags.length = a.items.length →
      ∃ b : RunSeg, s = .run b ∧
        RunSeg.append a s
          = .ok { a with items := a.items ++ b.items, tags := a.tags ++ b.tags })
    ∧ (∀ (r : RunSeg) (k : Nat), 0 < k → k < r.items.length →
        r.tags.length = r.items.length →
        RunSeg.append (r.createSplitSegmentAt k).1
            (.run (r.createSplitSegmentAt k).2) = .ok r) := by
  constructor
  · intro a s hcan htags
    cases s with
    | padding p => simp [RunSeg.canAppend] at hcan
    | run b =>
        refine ⟨b, rfl, ?_⟩
        have hle : a.tags.length ≤ a.items.length + b.items.length := by omega
        simp [RunSeg.append, take_length_le_eq _ _ hle, drop_length_le_eq _ _ hle]
  · intro r k h0 hk htags
    simp only [RunSeg.createSplitSegmentAt, RunSeg.append]
    have hle : (r.tags.take k).length ≤ (r.items.take k ++ r.items.drop k).length := by
      rw [List.take_append_drop, List.length_take]
      omega
    rw [take_length_le_eq _ _ hle, drop_length_le_eq _ _ hle, List.append_nil]
    simp [List.take_append_drop]

theorem C4_run_append_law_witness :
    (RunSeg.canAppend sampleRun (.run sampleRun) = true
     ∧ sampleRun.tags.length = sampleRun.items.length
     ∧ ∃ b : RunSeg, MatrixSegment.run sampleRun = .run b
        ∧ RunSeg.append sampleRun (.run sampleRun)
            = .ok { sampleRun with items := sampleRun.items ++ b.items,
                                   tags := sampleRun.tags ++ b.tags })
    ∧ RunSeg.append (sampleRun.createSplitSegmentAt 1).1
        (.run (sampleRun.createSplitSegmentAt 1).2) = .ok sampleRun :=
  ⟨⟨by decide, by decide,
    C4_run_append_law.1 sampleRun (.run sampleRun) (by decide) (by decide)⟩,
   C4_run_append_law.2 sampleRun 1 (by decide) (by decide) (by decide)⟩

/-- Claim C5: `PaddingSegment.append(other)` succeeds exactly when
`other` is a padding segment, yielding the summed length `n + m`; a
non-padding argument fails with the `InvalidAppend` error before any
mutation (the embedding returns the error and no updated segment, the
receiver record staying what it was). -/
theorem C5_padding_append_guard (p : PaddingSeg) (s : MatrixSegment) :
    (PaddingSeg.canAppend p s = true →
      ∃ q : PaddingSeg, s = .padding q ∧
        PaddingSeg.append p s
          = .ok { p with cachedLength := p.cachedLength + q.cachedLength })
    ∧ (PaddingSeg.canAppend p s = false →
        PaddingSeg.append p s = .error "can only append padding segment")
    ∧ ((∃ v, PaddingSeg.append p s = .ok v) ↔ PaddingSeg.canAppend p s = true) := by
  cases s with
  | padding q =>
      refine ⟨fun _ => ⟨q, rfl, rfl⟩, fun h => ?_, ?_⟩
      · simp [PaddingSeg.canAppend] at h
      · simp [PaddingSeg.canAppend, PaddingSeg.append]
  | run r =>
      refine ⟨fun h => ?_, fun _ => rfl, ?_⟩
      · simp [PaddingSeg.canAppend] at h
      · simp [PaddingSeg.canAppend, PaddingSeg.append]

/-- Sample padding segments used to instantiate witnesses. -/
def samplePad : PaddingSeg :=
  { cachedLength := 2, seq := none, clientId := none, properties := none }

def samplePad2 : PaddingSeg :=
  { cachedLength := 3, seq := some 7, clientId := some 8, properties := none }

theorem C5_padding_append_guard_witness :
    PaddingSeg.canAppend samplePad (.padding samplePad2) = true
    ∧ ∃ q : PaddingSeg, MatrixSegment.padding samplePad2 = .padding q ∧
        PaddingSeg.append samplePad (.padding samplePad2)
          = .ok { samplePad with cachedLength := samplePad.cachedLength + q.cachedLength } :=
  ⟨by decide, (C5_padding_append_guard samplePad (.padding samplePad2)).1 (by decide)⟩

/-- Claim C9: deserializing the serialized form of any run segment
yields a run segment with the same items whose tag array is freshly
all-absent of the items' length, whatever tags the original carried;
the serialized form itself never mentions the tags. -/
theorem C9_run_serialization_roundtrip (r : RunSeg) :
    RunSeg.toJSONObject r = IJSONSegment.itemsSpec r.items r.properties
    ∧ segmentFromSpec (RunSeg.toJSONObject r)
        = .ok (.run { items := r.items, tags := List.replicate r.items.length none,
                      seq := some UniversalSequenceNumber,
                      clientId := some LocalClientId,
                      properties := r.properties }) := by
  refine ⟨rfl, ?_⟩
  cases hp : r.properties with
  | none =>
      simp [segmentFromSpec, RunSeg.toJSONObject, PaddingSeg.fromJSONObject,
        RunSeg.fromJSONObject, RunSeg.mk', hp]
  | some pr =>
      simp [segmentFromSpec, RunSeg.toJSONObject, PaddingSeg.fromJSONObject,
        RunSeg.fromJSONObject, RunSeg.mk', addProps, hp]

/-- Claim C10: `PaddingSegment.clone(start, end)` ignores its range
arguments: for every choice of `start`/`end` the clone is a full-length
copy carrying the original's length, provenance and properties. -/
theorem C10_padding_clone_ignores_range (p : PaddingSeg) (start : Nat) (e : Option Nat) :
    PaddingSeg.clone p start e = p := rfl

/-- Effect of `setItems` on the flattened cell list: the written window
is replaced by the values. -/
theorem flatten_setItems (chain : List MatrixSegment) (row col : Nat)
    (values : List UnboxedOper) (props : Option PropertySet)
    (h : rowColToPosition row col ≤ (flatten chain).length) :
    flatten (setItems chain row col values props)
      = (flatten chain).take (rowColToPosition row col)
        ++ (values ++ (flatten chain).drop (rowColToPosition row col + values.length)) := by
  have hcells :
      segCells (.run (match props with
        | some pr => { RunSeg.mk' values none none with
                        properties := addProps (RunSeg.mk' values none none).properties pr }
        | none => RunSeg.mk' values none none)) = values := by
    cases props <;> rfl
  simp only [setItems, replaceRange]
  rw [flatten_chainInsert, flatten_chainRemoveRange chain _ _ (by omega), hcells]
  have hlen : ((flatten chain).take (rowColToPosition row col)).length
      = rowColToPosition row col := by
    rw [List.length_take]; omega
  have hta : ((flatten chain).take (rowColToPosition row col)
        ++ (flatten chain).drop (rowColToPosition row col + values.length)).take
          (rowColToPosition row col)
      = (flatten chain).take (rowColToPosition row col) := by
    rw [take_append_le _ _ _ (by omega), List.take_take, Nat.min_self]
  have htb : ((flatten chain).take (rowColToPosition row col)
        ++ (flatten chain).drop (rowColToPosition row col + values.length)).drop
          (rowColToPosition row col)
      = (flatten chain).drop (rowColToPosition row col + values.length) := by
    calc ((flatten chain).take (rowColToPosition row col)
          ++ (flatten chain).drop (rowColToPosition row col + values.length)).drop
            (rowColToPosition row col)
        = ((flatten chain).take (rowColToPosition row col)
            ++ (flatten chain).drop (rowColToPosition row col + values.length)).drop
              (((flatten chain).take (rowColToPosition row col)).length + 0) := by
          rw [hlen, Nat.add_zero]
      _ = ((flatten chain).drop (rowColToPosition row col + values.length)).drop 0 :=
          drop_append_add _ _ _
      _ = (flatten chain).drop (rowColToPosition row col + values.length) :=
          List.drop_zero _
  rw [hta, htb, List.append_assoc]

/-- Claim C1: on a freshly created matrix (rows inserted, nothing else
written), after `setItems(row, col, values)`, `getItem(row, col + i)`
returns `values[i]` for every in-range `i`, and `getItem` on every
cell of the matrix not covered by the written run returns absent. -/
theorem C1_setItems_getItem_roundtrip (R row col : Nat) (values : List UnboxedOper)
    (hrow : row < R) (hcol : col + values.length ≤ maxCols) :
    (∀ i, i < values.length →
        getItem (setItems (insertRows [] 0 R) row col values none) row (col + i)
          = values.getD i .undefinedVal)
    ∧ (∀ r c, r < R → c < maxCols →
        (r ≠ row ∨ c < col ∨ col + values.length ≤ c) →
        getItem (setItems (insertRows [] 0 R) row col values none) r c = .undefinedVal) := by
  have hbase : flatten (insertRows [] 0 R)
      = List.replicate (maxCols * R) .undefinedVal := by
    simp [insertRows, chainInsert, flatten, segCells]
  have hlenbase : (flatten (insertRows [] 0 R)).length = maxCols * R := by
    rw [hbase, List.length_replicate]
  have hRmc : rowColToPosition row col + values.length ≤ maxCols * R := by
    simp only [rowColToPosition, maxCols, maxCol] at *
    omega
  have hflat : flatten (setItems (insertRows [] 0 R) row col values none)
      = List.replicate (rowColToPosition row col) .undefinedVal
        ++ (values
            ++ List.replicate (maxCols * R - (rowColToPosition row col + values.length))
                 .undefinedVal) := by
    rw [flatten_setItems _ _ _ _ _ (by omega), hbase, List.take_replicate,
        List.drop_replicate]
    have : min (rowColToPosition row col) (maxCols * R) = rowColToPosition row col := by
      omega
    rw [this]
  have hget : ∀ p : Nat,
      getItemAtPos (setItems (insertRows [] 0 R) row col values none) p
        = if rowColToPosition row col ≤ p ∧ p < rowColToPosition row col + values.length
          then values.getD (p - rowColToPosition row col) .undefinedVal
          else .undefinedVal := by
    intro p
    rw [getItemAtPos_eq_flatten, hflat]
    by_cases h1 : p < rowColToPosition row col
    · rw [if_neg (by omega)]
      rw [getD_append_lt _ _ _ _ (by rw [List.length_replicate]; omega), getD_replicate]
    · rw [getD_append_ge _ _ _ _ (by rw [List.length_replicate]; omega),
          List.length_replicate]
      by_cases h2 : p < rowColToPosition row col + values.length
      · rw [if_pos (by omega)]
        rw [getD_append_lt _ _ _ _ (by omega)]
      · rw [if_neg (by omega)]
        rw [getD_append_ge _ _ _ _ (by omega), getD_replicate]
  constructor
  · intro i hi
    have hpos : rowColToPosition row (col + i) = rowColToPosition row col + i := by
      simp only [rowColToPosition]; omega
    rw [getItem, hpos, hget, if_pos (by omega)]
    have : rowColToPosition row col + i - rowColToPosition row col = i := by omega
    rw [this]
  · intro r c hr hc hside
    rw [getItem, hget, if_neg ?_]
    simp only [rowColToPosition, maxCols, maxCol] at hcol hc hside ⊢
    rcases hside with h | h | h
    · intro hcontra
      rcases Nat.lt_trichotomy r row with hlt | heq | hgt
      · omega
      · exact h heq
      · omega
    · omega
    · omega

theorem C1_setItems_getItem_roundtrip_witness :
    getItem (setItems (insertRows [] 0 1) 0 0 [.strVal "x"] none) 0 (0 + 0)
      = ([UnboxedOper.strVal "x"]).getD 0 .undefinedVal
    ∧ getItem (setItems (insertRows [] 0 1) 0 0 [.strVal "x"] none) 0 1 = .undefinedVal :=
  ⟨(C1_setItems_getItem_roundtrip 1 0 0 [.strVal "x"] (by decide) (by decide)).1
      0 (by decide),
   (C1_setItems_getItem_roundtrip 1 0 0 [.strVal "x"] (by decide) (by decide)).2
      0 1 (by decide) (by decide) (by decide)⟩

theorem chainLength_cons (s : MatrixSegment) (rest : List MatrixSegment) :
    chainLength (s :: rest) = s.cachedLength + chainLength rest := rfl

/-- Behaviour of `setTag` resolved at a linear position inside the
extent: an error exactly over padding with a non-absent tag, a no-op
over padding with the absent tag, and an effective update whose tag
`getTag` then reads back over a run. -/
theorem setTagAtPos_spec (chain : List MatrixSegment) :
    ∀ (pos : Nat) (tag : Tag), chainWF chain = true → pos < chainLength chain →
      ((∃ msg, setTagAtPos chain pos tag = .error msg)
        ↔ ((∃ p off, getContainingSegment chain pos = some (.padding p, off))
            ∧ tag ≠ none))
      ∧ ((∃ p off, getContainingSegment chain pos = some (.padding p, off)) →
          tag = none → setTagAtPos chain pos tag = .ok chain)
      ∧ (∀ r off, getContainingSegment chain pos = some (.run r, off) →
          ∃ chain2, setTagAtPos chain pos tag = .ok chain2
            ∧ getTagAtPos chain2 pos = tag) := by
  induction chain with
  | nil =>
      intro pos tag _ hpos
      simp [chainLength] at hpos
  | cons s rest ih =>
      intro pos tag hWF hpos
      by_cases hlt : pos < s.cachedLength
      · cases s with
        | run r =>
            have hWFr : r.tags.length = r.items.length := by
              simp [chainWF] at hWF
              exact hWF.1
            have hok : setTagAtPos (.run r :: rest) pos tag
                = .ok (.run (r.setTagAt pos tag) :: rest) := by
              simp [setTagAtPos, hlt]
            have hseg : getContainingSegment (.run r :: rest) pos
                = some (.run r, pos) := by
              simp [getContainingSegment, hlt]
            refine ⟨?_, ?_, ?_⟩
            · constructor
              · rintro ⟨msg, hmsg⟩
                rw [hok] at hmsg
                cases hmsg
              · rintro ⟨⟨p, off, hpo⟩, _⟩
                rw [hseg] at hpo
                cases hpo
            · rintro ⟨p, off, hpo⟩
              rw [hseg] at hpo
              cases hpo
            · intro r2 off hro
              rw [hseg] at hro
              injection hro with hro
              injection hro with hr1 hr2
              refine ⟨.run (r.setTagAt pos tag) :: rest, hok, ?_⟩
              have hlen : (r.setTagAt pos tag).items.length = r.items.length := rfl
              have hlt2 : pos < (r.setTagAt pos tag).items.length := by
                rw [hlen]
                simpa [MatrixSegment.cachedLength] using hlt
              simp only [getTagAtPos, getContainingSegment, MatrixSegment.cachedLength,
                if_pos hlt2]
              simp only [RunSeg.getTagAt, RunSeg.setTagAt]
              exact getD_set_self _ _ _ _
                (by simp only [MatrixSegment.cachedLength] at hlt; omega)
        | padding p =>
            have hseg : getContainingSegment (.padding p :: rest) pos
                = some (.padding p, pos) := by
              simp [getContainingSegment, hlt]
            refine ⟨?_, ?_, ?_⟩
            · constructor
              · rintro ⟨msg, hmsg⟩
                refine ⟨⟨p, pos, hseg⟩, ?_⟩
                intro htag
                rw [htag] at hmsg
                simp [setTagAtPos, hlt] at hmsg
              · rintro ⟨-, htag⟩
                refine ⟨"Must not attempt to set tags on PaddingSegment", ?_⟩
                simp [setTagAtPos, hlt, htag]
            · intro _ htag
              rw [htag]
              simp [setTagAtPos, hlt]
            · intro r2 off hro
              rw [hseg] at hro
              cases hro
      · have hWFrest : chainWF rest = true := by
          cases s with
          | run r => simp [chainWF] at hWF; exact hWF.2
          | padding p => simpa [chainWF] using hWF
        have hpos2 : pos - s.cachedLength < chainLength rest := by
          rw [chainLength_cons] at hpos
          omega
        have hsegeq : getContainingSegment (s :: rest) pos
            = getContainingSegment rest (pos - s.cachedLength) := by
          simp [getContainingSegment, hlt]
        obtain ⟨ih1, ih2, ih3⟩ := ih (pos - s.cachedLength) tag hWFrest hpos2
        have hstep : ∀ out, setTagAtPos (s :: rest) pos tag = out ↔
            out = (match setTagAtPos rest (pos - s.cachedLength) tag with
                   | .ok rest2 => .ok (s :: rest2)
                   | .error msg => .error msg) := by
          intro out
          constructor
          · intro h
            rw [← h]
            simp [setTagAtPos, hlt]
          · intro h
            rw [h]
            simp [setTagAtPos, hlt]
        refine ⟨?_, ?_, ?_⟩
        · rw [hsegeq]
          cases hres : setTagAtPos rest (pos - s.cachedLength) tag with
          | ok rest2 =>
              constructor
              · rintro ⟨msg, hmsg⟩
                rw [(hstep _).2 rfl, hres] at hmsg
                cases hmsg
              · intro hr
                obtain ⟨msg, hmsg⟩ := ih1.2 hr
                rw [hres] at hmsg
                cases hmsg
          | error msg2 =>
              constructor
              · intro _
                exact ih1.1 ⟨msg2, hres⟩
              · intro _
                refine ⟨msg2, ?_⟩
                rw [(hstep _).2 rfl, hres]
        · intro hpad htag
          rw [hsegeq] at hpad
          rw [(hstep _).2 rfl, ih2 hpad htag]
        · intro r2 off hro
          rw [hsegeq] at hro
          obtain ⟨c2, hok, htag2⟩ := ih3 r2 off hro
          refine ⟨s :: c2, ?_, ?_⟩
          · rw [(hstep _).2 rfl, hok]
          · have hl2 : ¬ pos < s.cachedLength := hlt
            simp only [getTagAtPos, getContainingSegment, if_neg hl2]
            simpa [getTagAtPos] using htag2

/-- Claim C6: with the addressed position inside the extent,
`setTag(row, col, tag)` fails exactly when the covering segment is not
a run segment and `tag` is not absent; over padding with the absent
tag it is a no-op leaving the chain unchanged; over a run segment it
sets the tag at the cell's offset, which `getTag(row, col)` then
returns. -/
theorem C6_setTag_guard (chain : List MatrixSegment) (row col : Nat) (tag : Tag)
    (hWF : chainWF chain = true)
    (hpos : rowColToPosition row col < chainLength chain) :
    ((∃ msg, setTag chain row col tag = .error msg)
      ↔ ((∃ p off, getContainingSegment chain (rowColToPosition row col)
            = some (.padding p, off)) ∧ tag ≠ none))
    ∧ ((∃ p off, getContainingSegment chain (rowColToPosition row col)
          = some (.padding p, off)) → tag = none →
        setTag chain row col tag = .ok chain)
    ∧ (∀ r off, getContainingSegment chain (rowColToPosition row col)
          = some (.run r, off) →
        ∃ chain2, setTag chain row col tag = .ok chain2
          ∧ getTag chain2 row col = tag) :=
  setTagAtPos_spec chain (rowColToPosition row col) tag hWF hpos

theorem C6_setTag_guard_witness :
    ∃ chain2, setTag [.run sampleRun] 0 1 (some "flag") = .ok chain2
      ∧ getTag chain2 0 1 = some "flag" :=
  (C6_setTag_guard [.run sampleRun] 0 1 (some "flag") (by decide)
      (by decide)).2.2 sampleRun 1 (by decide)

theorem chainLength_chainInsert (chain : List MatrixSegment) (pos : Nat)
    (seg : MatrixSegment) :
    chainLength (chainInsert chain pos seg)
      = chainLength chain + seg.cachedLength := by
  have hf := flatten_length chain
  rw [← flatten_length, flatten_chainInsert chain pos seg]
  simp only [List.length_append, List.length_take, List.length_drop, segCells_length]
  omega

theorem chainLength_chainRemoveRange (chain : List MatrixSegment) (a b : Nat)
    (hab : a ≤ b) :
    chainLength (chainRemoveRange chain a b)
      = min a (chainLength chain) + (chainLength chain - b) := by
  have hf := flatten_length chain
  rw [← flatten_length, flatten_chainRemoveRange chain a b hab]
  simp only [List.length_append, List.length_take, List.length_drop]
  omega

/-- Claim C8: `rowCount` is the derived quantity
`floor(totalLength / maxCols)`; `insertRows(r, n)` (a single padding
segment of length `n * maxCols` at the start of row `r`) increases it
by exactly `n`, and `removeRows(r, n)` within the current extent
decreases it by exactly `n`. -/
theorem C8_row_count (chain : List MatrixSegment) (r n : Nat) :
    numRows chain = chainLength chain / maxCols
    ∧ numRows (insertRows chain r n) = numRows chain + n
    ∧ (rowColToPosition r 0 + maxCols * n ≤ chainLength chain →
        numRows (removeRows chain r n) = numRows chain - n) := by
  refine ⟨rfl, ?_, ?_⟩
  · show (positionToRowCol (chainLength (insertRows chain r n))).row
        = (positionToRowCol (chainLength chain)).row + n
    simp only [insertRows]
    rw [chainLength_chainInsert]
    show (chainLength chain + maxCols * n) / maxCols
        = chainLength chain / maxCols + n
    rw [Nat.add_mul_div_left _ _ (show 0 < maxCols by simp [maxCols])]
  · intro h
    show (positionToRowCol (chainLength (removeRows chain r n))).row
        = (positionToRowCol (chainLength chain)).row - n
    simp only [removeRows]
    rw [chainLength_chainRemoveRange _ _ _ (by omega)]
    show (min (rowColToPosition r 0) (chainLength chain)
            + (chainLength chain - (rowColToPosition r 0 + maxCols * n))) / maxCols
        = chainLength chain / maxCols - n
    have hmin : min (rowColToPosition r 0) (chainLength chain)
        = rowColToPosition r 0 := by omega
    rw [hmin]
    have heq : rowColToPosition r 0 + (chainLength chain
          - (rowColToPosition r 0 + maxCols * n))
        = chainLength chain - maxCols * n := by omega
    rw [heq]
    exact Nat.sub_mul_div _ _ _ (by omega)

theorem C8_row_count_witness :
    rowColToPosition 0 0 + maxCols * 1 ≤ chainLength (insertRows [] 0 2)
    ∧ numRows (removeRows (insertRows [] 0 2) 0 1)
        = numRows (insertRows [] 0 2) - 1 :=
  ⟨by decide, (C8_row_count (insertRows [] 0 2) 0 1).2.2 (by decide)⟩

/-! ### The effect of `moveAsPadding` on the flattened cell list -/

/-- Effect of one `moveAsPadding` iteration on one full row of cells:
the slice `[srcCol, srcCol + n)` is removed and `n` absent cells are
inserted at `destCol`. -/
def rowOp (src dest n : Nat) (l : List UnboxedOper) : List UnboxedOper :=
  (l.take src ++ l.drop (src + n)).take dest
    ++ (List.replicate n .undefinedVal ++ (l.take src ++ l.drop (src + n)).drop dest)

/-- `rowOp` applied to each of the first `k` rows of a cell list. -/
def mapRows (src dest n : Nat) : Nat → List UnboxedOper → List UnboxedOper
  | 0, l => l
  | k + 1, l => rowOp src dest n (l.take maxCols) ++ mapRows src dest n k (l.drop maxCols)

theorem drop_drop_add {α : Type} (l : List α) (m n : Nat) :
    (l.drop m).drop n = l.drop (m + n) := by
  induction l generalizing m with
  | nil => simp
  | cons a t ih =>
      cases m with
      | zero => simp
      | succ m2 => simp [List.drop, Nat.succ_add, ih m2]

theorem rowOp_mid_length (src n : Nat) (l : List UnboxedOper)
    (hlen : l.length = maxCols) (hsrc : src + n ≤ maxCols) :
    (l.take src ++ l.drop (src + n)).length = maxCols - n := by
  simp only [List.length_append, List.length_take, List.length_drop]
  omega

theorem rowOp_length (src dest n : Nat) (l : List UnboxedOper)
    (hlen : l.length = maxCols) (hsrc : src + n ≤ maxCols)
    (hdest : dest + n ≤ maxCols) :
    (rowOp src dest n l).length = maxCols := by
  have hmid := rowOp_mid_length src n l hlen hsrc
  simp only [rowOp, List.length_append, List.length_take, List.length_drop,
    List.length_replicate]
  omega

theorem rowOp_getD_left (src dest n : Nat) (row : List UnboxedOper) (c : Nat)
    (hlen : row.length = maxCols) (hsrc : src + n ≤ maxCols)
    (hdest : dest + n ≤ maxCols) (hds : dest ≤ src) (hc : c < dest) :
    (rowOp src dest n row).getD c .undefinedVal = row.getD c .undefinedVal := by
  have hmid := rowOp_mid_length src n row hlen hsrc
  rw [rowOp,
      getD_append_lt _ _ _ _ (by rw [List.length_take]; omega),
      getD_take_of_lt _ _ _ _ hc,
      getD_append_lt _ _ _ _ (by rw [List.length_take]; omega),
      getD_take_of_lt _ _ _ _ (by omega)]

theorem rowOp_getD_pad (src dest n : Nat) (row : List UnboxedOper) (c : Nat)
    (hlen : row.length = maxCols) (hsrc : src + n ≤ maxCols)
    (hdest : dest + n ≤ maxCols) (hc1 : dest ≤ c) (hc2 : c < dest + n) :
    (rowOp src dest n row).getD c .undefinedVal = .undefinedVal := by
  have hmid := rowOp_mid_length src n row hlen hsrc
  rw [rowOp,
      getD_append_ge _ _ _ _ (by rw [List.length_take]; omega),
      getD_append_lt _ _ _ _ (by rw [List.length_replicate, List.length_take]; omega),
      getD_replicate]

theorem rowOp_getD_shift (src dest n : Nat) (row : List UnboxedOper) (c : Nat)
    (hlen : row.length = maxCols) (hsrc : src + n ≤ maxCols)
    (hdest : dest + n ≤ maxCols) (hc1 : dest ≤ c) (hc2 : c < src) :
    (rowOp src dest n row).getD (c + n) .undefinedVal = row.getD c .undefinedVal := by
  have hmid := rowOp_mid_length src n row hlen hsrc
  rw [rowOp,
      getD_append_ge _ _ _ _ (by rw [List.length_take]; omega),
      getD_append_ge _ _ _ _ (by rw [List.length_replicate, List.length_take]; omega)]
  have hidx : c + n - ((row.take src ++ row.drop (src + n)).take dest).length
      - (List.replicate n UnboxedOper.undefinedVal).length = c - dest := by
    rw [List.length_take, List.length_replicate]
    omega
  rw [hidx, getD_drop]
  have hc3 : dest + (c - dest) = c := by omega
  rw [hc3, getD_append_lt _ _ _ _ (by rw [List.length_take]; omega),
      getD_take_of_lt _ _ _ _ (by omega)]

/-- Reading a cell of row `r` through the flattened list equals reading
the row's slice. -/
theorem getD_row_slice {α : Type} (l : List α) (r c : Nat) (d : α)
    (hc : c < maxCols) :
    ((l.drop (r * maxCols)).take maxCols).getD c d = l.getD (r * maxCols + c) d := by
  rw [getD_take_of_lt _ _ _ _ hc, getD_drop]

theorem mapRows_getD (src dest n : Nat) :
    ∀ (k : Nat) (l : List UnboxedOper) (r c : Nat),
      src + n ≤ maxCols → dest + n ≤ maxCols →
      l.length = k * maxCols → r < k → c < maxCols →
      (mapRows src dest n k l).getD (r * maxCols + c) .undefinedVal
        = (rowOp src dest n ((l.drop (r * maxCols)).take maxCols)).getD c .undefinedVal := by
  intro k
  induction k with
  | zero => intro l r c _ _ _ hr _; omega
  | succ k ih =>
      intro l r c hsrc hdest hl hr hc
      have hrow_len : (l.take maxCols).length = maxCols := by
        rw [List.length_take]
        simp only [maxCols, maxCol] at hl ⊢
        omega
      have hro_len : (rowOp src dest n (l.take maxCols)).length = maxCols :=
        rowOp_length src dest n _ hrow_len hsrc hdest
      cases r with
      | zero =>
          rw [mapRows]
          simp only [Nat.zero_mul, Nat.zero_add]
          rw [getD_append_lt _ _ _ _ (by rw [hro_len]; exact hc)]
          rw [List.drop_zero]
      | succ r2 =>
          rw [mapRows]
          rw [getD_append_ge _ _ _ _
              (by rw [hro_len]; simp only [maxCols, maxCol]; omega), hro_len]
          have hidx : (r2 + 1) * maxCols + c - maxCols = r2 * maxCols + c := by
            simp only [maxCols, maxCol]
            omega
          rw [hidx]
          rw [ih (l.drop maxCols) r2 c hsrc hdest
              (by rw [List.length_drop]; simp only [maxCols, maxCol] at hl ⊢; omega)
              (by omega) hc]
          rw [drop_drop_add]
          have : maxCols + r2 * maxCols = (r2 + 1) * maxCols := by
            simp only [maxCols, maxCol]
            omega
          rw [this]

theorem take_exact_append {α : Type} (C D B : List α) :
    (C ++ (D ++ B)).take (C.length + D.length) = C ++ D := by
  rw [take_append_add, take_append_le _ _ _ (Nat.le_refl _),
      take_length_le_eq _ _ (Nat.le_refl _)]

theorem drop_exact_append {α : Type} (C D B : List α) :
    (C ++ (D ++ B)).drop (C.length + D.length) = B := by
  rw [drop_append_add, drop_append_le _ _ _ (Nat.le_refl _),
      drop_length_le_eq _ _ (Nat.le_refl _), List.nil_append]

/-- One remove-then-insert iteration of `moveAsPadding`, expressed on
the flattened cell list, rewrites exactly the row at `rs` by `rowOp`
and leaves the rest in place. -/
theorem rowOp_splice (f : List UnboxedOper) (rs src dest n : Nat)
    (hsrc : src + n ≤ maxCols) (hdest : dest + n ≤ maxCols)
    (hlen : rs + maxCols ≤ f.length) :
    (f.take (rs + src) ++ f.drop (rs + src + n)).take (rs + dest)
      ++ List.replicate n .undefinedVal
      ++ (f.take (rs + src) ++ f.drop (rs + src + n)).drop (rs + dest)
    = f.take rs
      ++ (rowOp src dest n ((f.drop rs).take maxCols) ++ (f.drop rs).drop maxCols) := by
  set row : List UnboxedOper := (f.drop rs).take maxCols with hrow
  set B : List UnboxedOper := (f.drop rs).drop maxCols with hB
  have hrowlen : row.length = maxCols := by
    rw [hrow, List.length_take, List.length_drop]
    omega
  have hsplit : f.drop rs = row ++ B := by
    rw [hrow, hB, List.take_append_drop]
  have ha : f.take (rs + src) = f.take rs ++ row.take src := by
    rw [List.take_add]
    congr 1
    rw [hsplit, take_append_le _ _ _ (by rw [hrowlen]; omega)]
  have hb : f.drop (rs + src + n) = row.drop (src + n) ++ B := by
    have h2 : rs + src + n = rs + (src + n) := by omega
    rw [h2, ← drop_drop_add, hsplit,
        drop_append_le _ _ _ (by rw [hrowlen]; omega)]
  have hf1 : f.take (rs + src) ++ f.drop (rs + src + n)
      = f.take rs ++ ((row.take src ++ row.drop (src + n)) ++ B) := by
    rw [ha, hb]
    simp [List.append_assoc]
  have hrow1len : (row.take src ++ row.drop (src + n)).length = maxCols - n :=
    rowOp_mid_length src n row hrowlen hsrc
  have hCl : (f.take rs).length = rs := by
    rw [List.length_take]
    omega
  have hc1 : (f.take (rs + src) ++ f.drop (rs + src + n)).take (rs + dest)
      = f.take rs ++ (row.take src ++ row.drop (src + n)).take dest := by
    rw [hf1]
    calc (f.take rs ++ ((row.take src ++ row.drop (src + n)) ++ B)).take (rs + dest)
        = (f.take rs ++ ((row.take src ++ row.drop (src + n)) ++ B)).take
            ((f.take rs).length + dest) := by rw [hCl]
      _ = f.take rs ++ ((row.take src ++ row.drop (src + n)) ++ B).take dest :=
          take_append_add _ _ _
      _ = f.take rs ++ (row.take src ++ row.drop (src + n)).take dest := by
          rw [take_append_le _ _ _ (by rw [hrow1len]; omega)]
  have hc2 : (f.take (rs + src) ++ f.drop (rs + src + n)).drop (rs + dest)
      = (row.take src ++ row.drop (src + n)).drop dest ++ B := by
    rw [hf1]
    calc (f.take rs ++ ((row.take src ++ row.drop (src + n)) ++ B)).drop (rs + dest)
        = (f.take rs ++ ((row.take src ++ row.drop (src + n)) ++ B)).drop
            ((f.take rs).length + dest) := by rw [hCl]
      _ = ((row.take src ++ row.drop (src + n)) ++ B).drop dest :=
          drop_append_add _ _ _
      _ = (row.take src ++ row.drop (src + n)).drop dest ++ B :=
          drop_append_le _ _ _ (by rw [hrow1len]; omega)
  rw [hc1, hc2, rowOp]
  simp [List.append_assoc]

/-- The `moveAsPadding` loop, on the flattened cell list, applies
`rowOp` to every remaining full row, provided the total extent is an
exact number of rows and the fuel covers the remaining rows. -/
theorem moveAsPaddingGo_flatten (src dest n R : Nat)
    (hsrc : src + n ≤ maxCols) (hdest : dest + n ≤ maxCols) :
    ∀ (fuel r : Nat) (chain : List MatrixSegment),
      chainLength chain = R * maxCols → R ≤ r + fuel →
      flatten (moveAsPaddingGo src dest n fuel r (r * maxCols) chain)
        = (flatten chain).take (r * maxCols)
          ++ mapRows src dest n (R - r) ((flatten chain).drop (r * maxCols)) := by
  intro fuel
  induction fuel with
  | zero =>
      intro r chain hlen hfuel
      have hRr : R - r = 0 := by omega
      rw [moveAsPaddingGo, hRr, mapRows, List.take_append_drop]
  | succ fuel ih =>
      intro r chain hlen hfuel
      have hR : numRows chain = R := by
        show chainLength chain / maxCols = R
        rw [hlen]
        simp only [maxCols, maxCol]
        omega
      by_cases hr : r < R
      · simp only [moveAsPaddingGo]
        rw [hR, if_pos hr]
        have hmcle : r * maxCols + maxCols ≤ R * maxCols := by
          simp only [maxCols, maxCol]
          omega
        have hflen : (flatten chain).length = R * maxCols := by
          rw [flatten_length, hlen]
        have hremlen : chainLength (chainRemoveRange chain
              (r * maxCols + src) (r * maxCols + src + n)) = R * maxCols - n := by
          rw [chainLength_chainRemoveRange _ _ _ (by omega), hlen]
          omega
        have hinslen : chainLength (chainInsert
              (chainRemoveRange chain (r * maxCols + src) (r * maxCols + src + n))
              (r * maxCols + dest)
              (.padding { cachedLength := n, seq := some UniversalSequenceNumber,
                          clientId := some LocalClientId, properties := none }))
            = R * maxCols := by
          rw [chainLength_chainInsert, hremlen]
          show R * maxCols - n + n = R * maxCols
          omega
        have hstep : flatten (chainInsert
              (chainRemoveRange chain (r * maxCols + src) (r * maxCols + src + n))
              (r * maxCols + dest)
              (.padding { cachedLength := n, seq := some UniversalSequenceNumber,
                          clientId := some LocalClientId, properties := none }))
            = (flatten chain).take (r * maxCols)
              ++ (rowOp src dest n (((flatten chain).drop (r * maxCols)).take maxCols)
                  ++ ((flatten chain).drop (r * maxCols)).drop maxCols) := by
          rw [flatten_chainInsert,
              flatten_chainRemoveRange chain _ _ (by omega)]
          exact rowOp_splice (flatten chain) (r * maxCols) src dest n hsrc hdest
            (by omega)
        have hmul : r * maxCols + maxCols = (r + 1) * maxCols := by
          rw [Nat.succ_mul]
        rw [hmul, ih (r + 1) _ hinslen (by omega), hstep]
        have hCl : ((flatten chain).take (r * maxCols)).length = r * maxCols := by
          rw [List.length_take]
          omega
        have hrolen : (rowOp src dest n
              (((flatten chain).drop (r * maxCols)).take maxCols)).length = maxCols := by
          refine rowOp_length src dest n _ ?_ hsrc hdest
          rw [List.length_take, List.length_drop]
          omega
        have htake : ((flatten chain).take (r * maxCols)
              ++ (rowOp src dest n (((flatten chain).drop (r * maxCols)).take maxCols)
                  ++ ((flatten chain).drop (r * maxCols)).drop maxCols)).take
                ((r + 1) * maxCols)
            = (flatten chain).take (r * maxCols)
              ++ rowOp src dest n (((flatten chain).drop (r * maxCols)).take maxCols) := by
          calc ((flatten chain).take (r * maxCols)
              ++ (rowOp src dest n (((flatten chain).drop (r * maxCols)).take maxCols)
                  ++ ((flatten chain).drop (r * maxCols)).drop maxCols)).take
                ((r + 1) * maxCols)
              = ((flatten chain).take (r * maxCols)
                ++ (rowOp src dest n (((flatten chain).drop (r * maxCols)).take maxCols)
                    ++ ((flatten chain).drop (r * maxCols)).drop maxCols)).take
                  (((flatten chain).take (r * maxCols)).length
                    + (rowOp src dest n
                        (((flatten chain).drop (r * maxCols)).take maxCols)).length) := by
                rw [hCl, hrolen, hmul]
            _ = (flatten chain).take (r * maxCols)
                ++ rowOp src dest n (((flatten chain).drop (r * maxCols)).take maxCols) :=
                take_exact_append _ _ _
        have hdrop : ((flatten chain).take (r * maxCols)
              ++ (rowOp src dest n (((flatten chain).drop (r * maxCols)).take maxCols)
                  ++ ((flatten chain).drop (r * maxCols)).drop maxCols)).drop
                ((r + 1) * maxCols)
            = ((flatten chain).drop (r * maxCols)).drop maxCols := by
          calc ((flatten chain).take (r * maxCols)
              ++ (rowOp src dest n (((flatten chain).drop (r * maxCols)).take maxCols)
                  ++ ((flatten chain).drop (r * maxCols)).drop maxCols)).drop
                ((r + 1) * maxCols)
              = ((flatten chain).take (r * maxCols)
                ++ (rowOp src dest n (((flatten chain).drop (r * maxCols)).take maxCols)
                    ++ ((flatten chain).drop (r * maxCols)).drop maxCols)).drop
                  (((flatten chain).take (r * maxCols)).length
                    + (rowOp src dest n
                        (((flatten chain).drop (r * maxCols)).take maxCols)).length) := by
                rw [hCl, hrolen, hmul]
            _ = ((flatten chain).drop (r * maxCols)).drop maxCols :=
                drop_exact_append _ _ _
        rw [htake, hdrop]
        have hRr : R - r = (R - (r + 1)) + 1 := by omega
        rw [hRr, mapRows]
        simp [List.append_assoc]
      · simp only [moveAsPaddingGo]
        rw [hR, if_neg hr]
        have hRr : R - r = 0 := by omega
        rw [hRr, mapRows, List.take_append_drop]

/-- Claim C7, amended: after `insertCols(c, n)` (with `c + n` inside
the documented column range and the extent an exact number of rows),
in every row the cells at columns `< c` are unchanged and columns
`[c, c + n)` read as absent; a value formerly at column `c'` is
readable at `c' + n` for `c' + n < maxCol`.  The original claim's
unrestricted shift fails for the reserved tail columns
`[maxCol - n, maxCol]`: the operation recycles that slice as the
inserted padding, deleting the values in `[maxCol - n, maxCol)` and
leaving column `maxCol` in place. -/
theorem C7_column_shift_amended (chain : List MatrixSegment) (R c n : Nat)
    (hlen : chainLength chain = R * maxCols)
    (hcn : c + n ≤ maxCol) :
    ∀ r, r < R →
      (∀ c2, c2 < c → getItem (insertCols chain c n) r c2 = getItem chain r c2)
      ∧ (∀ c2, c ≤ c2 → c2 < c + n → getItem (insertCols chain c n) r c2 = .undefinedVal)
      ∧ (∀ c2, c ≤ c2 → c2 + n < maxCol →
          getItem (insertCols chain c n) r (c2 + n) = getItem chain r c2) := by
  intro r hr
  have hmc : maxCol < maxCols := by
    simp only [maxCols]
    omega
  have hsrc : (maxCol - n) + n ≤ maxCols := by
    simp only [maxCols]
    omega
  have hdest : c + n ≤ maxCols := by
    simp only [maxCols]
    omega
  have hnR : numRows chain = R := by
    show chainLength chain / maxCols = R
    rw [hlen]
    simp only [maxCols, maxCol]
    omega
  have hflen : (flatten chain).length = R * maxCols := by
    rw [flatten_length, hlen]
  have hflat : flatten (insertCols chain c n)
      = mapRows (maxCol - n) c n R (flatten chain) := by
    show flatten (moveAsPaddingGo (maxCol - n) c n (numRows chain + 1) 0 0 chain)
        = mapRows (maxCol - n) c n R (flatten chain)
    have hgo := moveAsPaddingGo_flatten (maxCol - n) c n R hsrc hdest
      (numRows chain + 1) 0 chain hlen (by rw [hnR]; omega)
    simp only [Nat.zero_mul, Nat.sub_zero, List.take_zero, List.drop_zero,
      List.nil_append] at hgo
    exact hgo
  have hget : ∀ c2, c2 < maxCols →
      getItem (insertCols chain c n) r c2
        = (rowOp (maxCol - n) c n
            (((flatten chain).drop (r * maxCols)).take maxCols)).getD c2 .undefinedVal := by
    intro c2 hc2
    rw [getItem, getItemAtPos_eq_flatten, hflat]
    have hpos : rowColToPosition r c2 = r * maxCols + c2 := rfl
    rw [hpos]
    exact mapRows_getD _ _ _ R (flatten chain) r c2 hsrc hdest hflen hr hc2
  have hgetOrig : ∀ c2, c2 < maxCols →
      getItem chain r c2
        = (((flatten chain).drop (r * maxCols)).take maxCols).getD c2 .undefinedVal := by
    intro c2 hc2
    rw [getItem, getItemAtPos_eq_flatten]
    have hpos : rowColToPosition r c2 = r * maxCols + c2 := rfl
    rw [hpos, getD_row_slice _ _ _ _ hc2]
  have hrowlen : (((flatten chain).drop (r * maxCols)).take maxCols).length
      = maxCols := by
    rw [List.length_take, List.length_drop]
    simp only [maxCols, maxCol] at hflen ⊢
    omega
  refine ⟨?_, ?_, ?_⟩
  · intro c2 hc2
    rw [hget c2 (by omega), hgetOrig c2 (by omega)]
    exact rowOp_getD_left _ _ _ _ _ hrowlen hsrc hdest (by omega) hc2
  · intro c2 hc21 hc22
    rw [hget c2 (by omega)]
    exact rowOp_getD_pad _ _ _ _ _ hrowlen hsrc hdest hc21 hc22
  · intro c2 hc21 hc22
    rw [hget (c2 + n) (by omega), hgetOrig c2 (by omega)]
    exact rowOp_getD_shift _ _ _ _ _ hrowlen hsrc hdest hc21 (by omega)

/-- Counterexample to claim C7 as stated: on a one-row matrix holding
a value at column `maxCol - 1`, after `insertCols(0, 1)` the value —
formerly readable at a column at or after the insertion point — is not
readable at the shifted column `maxCol - 1 + 1`; the tail slice it
occupied was recycled as the inserted padding. -/
theorem C7_column_shift_counterexample :
    getItem (setItems (insertRows [] 0 1) 0 (maxCol - 1) [.strVal "a"] none)
        0 (maxCol - 1)
      = .strVal "a"
    ∧ ¬ (getItem (insertCols (setItems (insertRows [] 0 1) 0 (maxCol - 1)
            [.strVal "a"] none) 0 1) 0 (maxCol - 1 + 1)
          = .strVal "a") := by
  decide

theorem C7_column_shift_amended_witness :
    getItem (insertCols (setItems (insertRows [] 0 1) 0 0 [.strVal "x"] none) 1 2) 0 0
      = getItem (setItems (insertRows [] 0 1) 0 0 [.strVal "x"] none) 0 0 :=
  (C7_column_shift_amended (setItems (insertRows [] 0 1) 0 0 [.strVal "x"] none)
      1 1 2 (by decide) (by decide) 0 (by decide)).1 0 (by decide)
